import Mathlib

/-!
Verification of the local peephole-optimization pass in `src/LocalOpts.cpp`.

The pass works on LLVM IR basic blocks.  We embed the fragment of the IR that
the pass touches:

* a `Value` is an integer constant (`ConstantInt`, a 32-bit `APInt`), the
  result of an instruction of the current block (referenced by a numeric id,
  playing the role of the C++ pointer), or an opaque variable (function
  arguments and any value defined outside the block).  The source file only
  ever inspects integer constants, so `Constant` and `ConstantInt` coincide
  in the model;
* an `Inst` is an instruction: an id (reference identity), an opcode and two
  operands.  All opcodes the pass reads or creates are binary
  (`Add`, `Sub`, `Mul`, `SDiv`, `Shl`, `AShr`); `other` stands for any
  non-binary instruction;
* a basic block is a `List Inst` in program order; the use list of an
  instruction is derived from the operands of the block's instructions
  (values defined outside the block are `Value.var`s, so all users of an
  instruction live in its block).

C++ behaviour that is undefined (a failed `dyn_cast` immediately
dereferenced, a shift `1 << n` with `n ≥ 32`, `eraseFromParent` on an
already-erased instruction) is modelled by returning `none`; every function
that can reach such a state is `Option`-valued.
-/

inductive Opcode where
  | add
  | sub
  | mul
  | sdiv
  | shl
  | ashr
  | other
  deriving DecidableEq

inductive Value where
  | const (n : Nat)
  | var (n : Nat)
  | inst (n : Nat)
  deriving DecidableEq

structure Inst where
  id : Nat
  opcode : Opcode
  op0 : Value
  op1 : Value
  deriving DecidableEq

/-- `Instruction::isBinaryOp`. -/
def isBinary : Opcode → Bool
  | .other => false
  | _ => true

/-- `isa<ConstantInt>` (the only constants in scope are integer constants). -/
def isConstV : Value → Bool
  | .const _ => true
  | _ => false

/-- `dyn_cast<ConstantInt>` followed by `getValue`; `none` is the null case. -/
def getConst : Value → Option Nat
  | .const n => some n
  | _ => none

/-- `Instruction::getOperand`. -/
def Inst.opnd (I : Inst) : Nat → Value
  | 0 => I.op0
  | _ => I.op1

/-- `checkOperands` (LocalOpts.cpp:18): an instruction is "mixed" iff not both
operands are variables and not both are constants. -/
def checkOperands (I : Inst) : Bool :=
  if !isConstV I.op0 && !isConstV I.op1 then false
  else if isConstV I.op0 && isConstV I.op1 then false
  else true

/-- One operand slot of `replaceAllUsesWith i ↦ v`. -/
def rauwV (i : Nat) (v : Value) (w : Value) : Value :=
  if w = .inst i then v else w

def rauwInst (i : Nat) (v : Value) (J : Inst) : Inst :=
  { J with op0 := rauwV i v J.op0, op1 := rauwV i v J.op1 }

/-- `Value::replaceAllUsesWith`: redirect every use of instruction `i` in the
block to `v`. -/
def rauw (B : List Inst) (i : Nat) (v : Value) : List Inst :=
  B.map (rauwInst i v)

def usesV (J : Inst) (v : Value) : Bool :=
  decide (J.op0 = v) || decide (J.op1 = v)

/-- The users of instruction `i`: the block's instructions that read its
result.  (The use list of `i`.) -/
def usesOf (B : List Inst) (i : Nat) : List Inst :=
  B.filter (fun J => usesV J (.inst i))

def userIds (B : List Inst) (i : Nat) : List Nat :=
  (usesOf B i).map (·.id)

/-- Dereference an instruction id (the C++ code holds plain pointers). -/
def lookupId (B : List Inst) (i : Nat) : Option Inst :=
  B.find? (fun J => J.id == i)

/-- `Instruction::insertAfter` for a batch of new instructions, placed
directly after the instruction with id `i`. -/
def insertAfterId (B : List Inst) (i : Nat) (news : List Inst) : List Inst :=
  match B with
  | [] => []
  | J :: rest =>
    if J.id = i then J :: (news ++ rest) else J :: insertAfterId rest i news

/-- `algebraicIdentity` (LocalOpts.cpp:30).  On a mixed binary instruction
whose (opcode, constant) pair is (Add,0), (Sub,0), (Mul,1) or (SDiv,1) —
the constant may sit in either slot — it redirects all uses of the
instruction to the variable operand and reports a match. -/
def algebraicIdentity (I : Inst) (B : List Inst) : Option (Bool × List Inst) :=
  if !isBinary I.opcode || !checkOperands I then some (false, B)
  else
    match getConst (if isConstV I.op0 then I.op0 else I.op1) with
    | none => none
    | some c =>
      if (I.opcode = .add ∧ c = 0) ∨ (I.opcode = .sub ∧ c = 0) ∨
          (I.opcode = .mul ∧ c = 1) ∨ (I.opcode = .sdiv ∧ c = 1) then
        some (true, rauw B I.id (if isConstV I.op0 then I.op1 else I.op0))
      else
        some (false, B)

/-- Fuelled floor of log2; `flog2Aux 33 n` is `APInt::logBase2` for every
32-bit value (fuel 33 suffices for `n < 2 ^ 32`). -/
def flog2Aux : Nat → Nat → Nat
  | 0, _ => 0
  | f + 1, n => if n < 2 then 0 else flog2Aux f (n / 2) + 1

def flog2 (n : Nat) : Nat := flog2Aux 33 n

/-- `APInt::nearestLogBase2` on a 32-bit value: `Lg + x[Lg-1]`.  For `Lg = 0`
the C++ bit test indexes bit `UINT32_MAX`, which on the inline 64-bit word of
a release build reads bit 63, i.e. 0. -/
def nearestLogBase2 (c : Nat) : Nat :=
  let lg := flog2 c
  if lg = 0 then 0 else lg + (c / 2 ^ (lg - 1)) % 2

/-- `APInt::abs` of a 32-bit value, as its unsigned magnitude. -/
def uabs (x : Nat) : Nat := if x < 2 ^ 31 then x else 2 ^ 32 - x

/-- `strengthReduction` (LocalOpts.cpp:52).  The extra results are the new
fresh-id counter and the list of ids of the instructions inserted after `I`
(in block order), which the block iteration will visit next.

`none` marks C++ undefined behaviour: for `c = 0`, `nearestLogBase2` returns
`UINT32_MAX` and `1 << UINT32_MAX` is undefined, and so is `1 << k` for
`k ≥ 32`.  For `k ≤ 31` the C++ `ConstVal - (1 << NearestLog)` computes
`(c - 2 ^ k) mod 2 ^ 32` on the 32-bit `APInt`. -/
def strengthReduction (I : Inst) (B : List Inst) (fresh : Nat) :
    Option (Bool × List Inst × Nat × List Nat) :=
  if !isBinary I.opcode || !checkOperands I then some (false, B, fresh, [])
  else if I.opcode ≠ .mul ∧ I.opcode ≠ .sdiv then some (false, B, fresh, [])
  else
    match getConst (if isConstV I.op0 then I.op0 else I.op1) with
    | none => none
    | some c =>
      if c = 0 then none
      else if 32 ≤ nearestLogBase2 c then none
      else
        let k := nearestLogBase2 c
        let rest := (c + (2 ^ 32 - 2 ^ k)) % 2 ^ 32
        if 1 < uabs rest then some (false, B, fresh, [])
        else if I.opcode ≠ .mul ∧ rest ≠ 0 then some (false, B, fresh, [])
        else
          let v := if isConstV I.op0 then I.op1 else I.op0
          let shiftInst : Inst :=
            ⟨fresh, if I.opcode = .mul then .shl else .ashr, v, .const k⟩
          if I.opcode = .mul ∧ rest ≠ 0 then
            -- `Rest.ugt(0)` is an UNSIGNED comparison on the 32-bit value,
            -- true for every non-zero `rest`, negative ones included.
            let restInst : Inst :=
              ⟨fresh + 1, if 0 < rest then .add else .sub, .inst fresh, v⟩
            some (true,
              rauw (insertAfterId B I.id [shiftInst, restInst]) I.id
                (.inst (fresh + 1)),
              fresh + 2, [fresh, fresh + 1])
          else
            some (true,
              rauw (insertAfterId B I.id [shiftInst]) I.id (.inst fresh),
              fresh + 1, [fresh])

/-- The inner loop of `multiInstructionOptimization` (LocalOpts.cpp:102):
walk the users of `I`, and cancel each user `J` that is a mixed binary
instruction of the opposite opcode whose operand *at the slot index of `I`'s
constant* equals `I`'s constant.  Reading that operand as a constant is the
C++ `dyn_cast<ConstantInt>(...)->getValue()`: if the slot holds a
non-constant the `dyn_cast` yields null and the load is undefined (`none`).

`I`'s own operands cannot change during the loop (no user of `I` can be used
by `I` in well-formed IR), so the snapshot `I` and the snapshot user list
match the live C++ iteration. -/
def cancelLoop (I : Inst) (c0 : Nat) :
    List Nat → List Inst → List Nat → Option (List Inst × List Nat)
  | [], B, tr => some (B, tr)
  | j :: js, B, tr =>
    match lookupId B j with
    | none => none
    | some J =>
      if !isBinary J.opcode || !checkOperands J then cancelLoop I c0 js B tr
      else if (I.opcode = .add ∧ J.opcode = .sub) ∨
          (I.opcode = .sub ∧ J.opcode = .add) ∨
          (I.opcode = .mul ∧ J.opcode = .sdiv) ∨
          (I.opcode = .sdiv ∧ J.opcode = .mul) then
        match getConst (J.opnd (if isConstV I.op0 then 0 else 1)) with
        | none => none
        | some cJ =>
          if c0 = cJ then
            cancelLoop I c0 js
              (rauw B J.id (I.opnd (if isConstV I.op0 then 1 else 0)))
              (tr ++ [J.id])
          else cancelLoop I c0 js B tr
      else cancelLoop I c0 js B tr

/-- `multiInstructionOptimization` (LocalOpts.cpp:95): appends the cancelled
users of `I` to the removal list, redirecting their uses to `I`'s variable
operand. -/
def multiInstructionOptimization (I : Inst) (B : List Inst) (tr : List Nat) :
    Option (List Inst × List Nat) :=
  if !isBinary I.opcode || !checkOperands I then some (B, tr)
  else
    match getConst (I.opnd (if isConstV I.op0 then 0 else 1)) with
    | none => none
    | some c0 => cancelLoop I c0 (userIds B I.id) B tr

/-- One iteration of the loop body of `runOnBasicBlock` (LocalOpts.cpp:130):
try `algebraicIdentity`, on failure `strengthReduction` (the `||` is
short-circuiting), push the instruction on a match, then always run
`multiInstructionOptimization` on the (possibly rewritten) state.  Returns
the new block, removal list, the ids of freshly inserted instructions (the
linked-list iteration visits them next) and the fresh-id counter. -/
def scanStep (B : List Inst) (i : Nat) (tr : List Nat) (fresh : Nat) :
    Option (List Inst × List Nat × List Nat × Nat) :=
  match lookupId B i with
  | none => none
  | some I =>
    match algebraicIdentity I B with
    | none => none
    | some (m1, B1) =>
      match (if m1 then some (false, B1, fresh, [])
        else strengthReduction I B1 fresh) with
      | none => none
      | some (m2, B2, fresh2, newIds) =>
        match lookupId B2 i with
        | none => none
        | some I2 =>
          match multiInstructionOptimization I2 B2
            (if m1 || m2 then tr ++ [i] else tr) with
          | none => none
          | some (B3, tr2) => some (B3, tr2, newIds, fresh2)

/-- The forward scan of `runOnBasicBlock`, driven by the queue of instruction
ids still to visit.  The fuel only bounds the recursion; inserted
instructions (shifts, and add/sub corrections over two variables) never match
a rule, so `3 * length + 3` fuel can never run out on the initial queue. -/
def scanGo : Nat → List Inst → List Nat → List Nat → Nat →
    Option (List Inst × List Nat × Nat)
  | 0, _, _, _, _ => none
  | _ + 1, B, [], tr, fresh => some (B, tr, fresh)
  | f + 1, B, i :: q, tr, fresh =>
    match scanStep B i tr fresh with
    | none => none
    | some (B1, tr1, newIds, fresh1) => scanGo f B1 (newIds ++ q) tr1 fresh1

/-- An upper bound for the numeric ids occurring in an instruction (its own
id and any instruction-result operand). -/
def refBound : Value → Nat
  | .inst m => m + 1
  | _ => 0

def instBound (I : Inst) : Nat :=
  max (I.id + 1) (max (refBound I.op0) (refBound I.op1))

/-- A fresh id for newly created instructions: C++ allocates new objects,
whose addresses differ from every existing instruction and operand. -/
def freshOf (B : List Inst) : Nat :=
  (B.map instBound).foldr max 0

/-- The scan phase of `runOnBasicBlock`: visit the block in order, returning
the rewritten block, the deferred removal list and the final fresh id. -/
def scanBlock (B : List Inst) : Option (List Inst × List Nat × Nat) :=
  scanGo (3 * B.length + 3) B (B.map (·.id)) [] (freshOf B)

/-- `Instruction::eraseFromParent` by id; erasing an instruction that is no
longer in the block is undefined (`none`). -/
def eraseId (B : List Inst) (t : Nat) : Option (List Inst) :=
  if B.any (fun J => J.id == t) then some (B.eraseP (fun J => J.id == t))
  else none

/-- The removal loop of `runOnBasicBlock` (LocalOpts.cpp:141). -/
def eraseAll (B : List Inst) : List Nat → Option (List Inst)
  | [] => some B
  | t :: ts =>
    match eraseId B t with
    | none => none
    | some B1 => eraseAll B1 ts

/-- `runOnBasicBlock` (LocalOpts.cpp:127): scan, then erase the collected
instructions.  Note line 145: it returns `true` unconditionally. -/
def runOnBasicBlock (B : List Inst) : Option (List Inst × Bool) :=
  match scanBlock B with
  | none => none
  | some (Bs, tr, _) =>
    match eraseAll Bs tr with
    | none => none
    | some Bf => some (Bf, true)

/-- `runOnFunction` (LocalOpts.cpp:148): run on every block, a function is
transformed if any block reported a modification. -/
def runOnFunction : List (List Inst) → Option (List (List Inst) × Bool)
  | [] => some ([], false)
  | b :: bs =>
    match runOnBasicBlock b with
    | none => none
    | some (b1, t) =>
      match runOnFunction bs with
      | none => none
      | some (bs1, ts) => some (b1 :: bs1, t || ts)

/-- `LocalOpts::run` (LocalOpts.cpp:160): iterate the module's functions, but
`return PreservedAnalyses::none()` — here `(module, true)` — as soon as one
function reports a transformation, leaving the remaining functions
unvisited.  `(module, false)` is `PreservedAnalyses::all()`. -/
def localOptsRun :
    List (List (List Inst)) → Option (List (List (List Inst)) × Bool)
  | [] => some ([], false)
  | F :: Fs =>
    match runOnFunction F with
    | none => none
    | some (F1, t) =>
      if t then some (F1 :: Fs, true)
      else
        match localOptsRun Fs with
        | none => none
        | some (Fs1, b) => some (F1 :: Fs1, b)

/-- Rank compatibility of one operand: an instruction-result operand must
have strictly smaller rank than its consumer. -/
def opRankOk (rank : Nat → Nat) (i : Nat) : Value → Prop
  | .inst m => rank m < rank i
  | _ => True

def rankOk (rank : Nat → Nat) (I : Inst) : Prop :=
  opRankOk rank I.id I.op0 ∧ opRankOk rank I.id I.op1

/-- The def-use graph of the block is acyclic: some rank function decreases
along every use edge.  Well-formed SSA blocks (defs before uses) satisfy
this with `rank = position`. -/
def acyclic (B : List Inst) : Prop :=
  ∃ rank : Nat → Nat, ∀ I ∈ B, rankOk rank I

/-- All ids and instruction-result operands of the block are below `f`. -/
def belowF (f : Nat) (B : List Inst) : Prop :=
  ∀ I ∈ B, instBound I ≤ f

/-- Every instruction already on the removal list has had all its uses
redirected away: nothing in the block reads it any more. -/
def markedDead (B : List Inst) (tr : List Nat) : Prop :=
  ∀ t ∈ tr, usesOf B t = []

/-- The invariant carried through the forward scan. -/
def scanInv (B : List Inst) (tr : List Nat) (f : Nat) : Prop :=
  acyclic B ∧ belowF f B ∧ markedDead B tr ∧ (∀ t ∈ tr, t < f) ∧
    (B.map (·.id)).Nodup

/-- Rank function witnessing acyclicity after strength reduction inserts the
two fresh ids `f` (the shift) and `f + 1` (the correction): ids below `f`
keep their rank scaled by 3, the shift ranks just above the rewritten
instruction's rank `a`, the correction just above the shift. -/
def rankExt (rank : Nat → Nat) (f a : Nat) (n : Nat) : Nat :=
  if n < f then 3 * rank n else if n = f then 3 * a + 1 else 3 * a + 2

theorem rauwV_ne (i : Nat) (v w : Value) (hv : v ≠ .inst i) :
    rauwV i v w ≠ .inst i := by
  unfold rauwV
  split
  · exact hv
  · assumption

theorem usesOf_rauw_self (B : List Inst) (i : Nat) (v : Value)
    (hv : v ≠ .inst i) : usesOf (rauw B i v) i = [] := by
  refine List.filter_eq_nil_iff.2 ?_
  intro J hJ
  rcases List.mem_map.1 hJ with ⟨K, _, rfl⟩
  simp only [usesV, rauwInst, Bool.or_eq_true, decide_eq_true_eq, not_or]
  exact ⟨rauwV_ne i v K.op0 hv, rauwV_ne i v K.op1 hv⟩

/-- C8: the Operand Classifier returns "mixed" iff exactly one of the two
operands is a constant; it rejects both the two-constants and the
two-variables case. -/
theorem checkOperands_mixed_iff (I : Inst) :
    checkOperands I = true ↔
      ((isConstV I.op0 = true ∧ isConstV I.op1 = false) ∨
        (isConstV I.op0 = false ∧ isConstV I.op1 = true)) := by
  unfold checkOperands
  cases h0 : isConstV I.op0 <;> cases h1 : isConstV I.op1 <;> simp

/-- C7: on a mixed binary instruction whose (opcode, constant) pair is
(Add,0), (Sub,0), (Mul,1) or (SDiv,1) — in either operand slot, also for the
non-commutative Sub and SDiv — `algebraicIdentity` redirects every use of the
instruction to the variable operand and reports a match; for every other
pair it reports no match and leaves the block unchanged. -/
theorem algebraicIdentity_spec (I : Inst) (B : List Inst) (c : Nat)
    (hb : isBinary I.opcode = true) (hm : checkOperands I = true)
    (hc : getConst (if isConstV I.op0 then I.op0 else I.op1) = some c) :
    (((I.opcode = .add ∧ c = 0) ∨ (I.opcode = .sub ∧ c = 0) ∨
        (I.opcode = .mul ∧ c = 1) ∨ (I.opcode = .sdiv ∧ c = 1)) →
      algebraicIdentity I B =
          some (true, rauw B I.id (if isConstV I.op0 then I.op1 else I.op0)) ∧
        ((if isConstV I.op0 then I.op1 else I.op0) ≠ .inst I.id →
          usesOf (rauw B I.id (if isConstV I.op0 then I.op1 else I.op0))
            I.id = [])) ∧
    (¬((I.opcode = .add ∧ c = 0) ∨ (I.opcode = .sub ∧ c = 0) ∨
        (I.opcode = .mul ∧ c = 1) ∨ (I.opcode = .sdiv ∧ c = 1)) →
      algebraicIdentity I B = some (false, B)) := by
  constructor
  · intro hp
    refine ⟨by simp [algebraicIdentity, hb, hm, hc, hp], ?_⟩
    intro hv
    exact usesOf_rauw_self B I.id _ hv
  · intro hp
    simp [algebraicIdentity, hb, hm, hc, hp]

/-- Witness for C7 at a concrete input: `%1 = sub 0, %v3` (constant in the
left slot) is treated as an identity, so the consumer `%2` now reads `%v3`. -/
theorem algebraicIdentity_spec_witness :
    algebraicIdentity ⟨1, .sub, .const 0, .var 3⟩
        [⟨1, .sub, .const 0, .var 3⟩, ⟨2, .add, .inst 1, .var 4⟩] =
      some (true, [⟨1, .sub, .const 0, .var 3⟩, ⟨2, .add, .var 3, .var 4⟩]) ∧
      usesOf [⟨1, .sub, .const 0, .var 3⟩, ⟨2, .add, .var 3, .var 4⟩] 1 = [] := by
  have h := algebraicIdentity_spec ⟨1, .sub, .const 0, .var 3⟩
    [⟨1, .sub, .const 0, .var 3⟩, ⟨2, .add, .inst 1, .var 4⟩] 0 (by decide)
    (by decide) rfl
  have h2 := h.1 (Or.inr (Or.inl ⟨rfl, rfl⟩))
  exact ⟨h2.1, h2.2 (by decide)⟩

/-- C3 (amended): `runOnBasicBlock` returns `true` whenever it completes,
whether or not the block was modified — line 145 of the source is an
unconditional `return true`. -/
theorem runOnBasicBlock_reports_true (B : List Inst) (r : List Inst × Bool)
    (h : runOnBasicBlock B = some r) : r.2 = true := by
  unfold runOnBasicBlock at h
  split at h
  · exact absurd h (by simp)
  · split at h
    · exact absurd h (by simp)
    · injection h with h
      subst h
      rfl

/-- C3 (counterexample): on a block where no rule matches, the removal list
is empty and the block comes back unmodified, yet `runOnBasicBlock` still
returns `true`; the claim demands `false` here. -/
theorem runOnBasicBlock_true_on_unmodified_block :
    runOnBasicBlock [⟨1, .add, .var 0, .var 1⟩] =
        some ([⟨1, .add, .var 0, .var 1⟩], true) ∧
      scanBlock [⟨1, .add, .var 0, .var 1⟩] =
        some ([⟨1, .add, .var 0, .var 1⟩], [], 2) := by
  decide

/-- Witness for the amended C3 at a concrete no-match block. -/
theorem runOnBasicBlock_reports_true_witness :
    runOnBasicBlock [⟨1, .sub, .var 2, .var 3⟩] =
        some ([⟨1, .sub, .var 2, .var 3⟩], true) ∧
      (([⟨1, .sub, .var 2, .var 3⟩], true) : List Inst × Bool).2 = true :=
  ⟨by decide,
    runOnBasicBlock_reports_true [⟨1, .sub, .var 2, .var 3⟩]
      ([⟨1, .sub, .var 2, .var 3⟩], true) (by decide)⟩

/-- C5 (amended): on a block on which the scan rewrites nothing and marks
nothing — a block already fully reduced — a further run leaves the
instruction sequence unchanged but still reports `true`, never "no
change". -/
theorem runOnBasicBlock_fixed_point (B : List Inst) (f : Nat)
    (h : scanBlock B = some (B, [], f)) :
    runOnBasicBlock B = some (B, true) := by
  unfold runOnBasicBlock
  rw [h]
  rfl

/-- C5 (counterexample): the block `[%1 = add %v0, 0; %2 = mul %1, %v5]` is
fully reduced by a first run to `[%2 = mul %v0, %v5]`; the second run leaves
that sequence unchanged but returns `true`, while the claim demands "no
change". -/
theorem second_run_still_reports_change :
    runOnBasicBlock [⟨1, .add, .var 0, .const 0⟩, ⟨2, .mul, .inst 1, .var 5⟩] =
        some ([⟨2, .mul, .var 0, .var 5⟩], true) ∧
      runOnBasicBlock [⟨2, .mul, .var 0, .var 5⟩] =
        some ([⟨2, .mul, .var 0, .var 5⟩], true) := by
  decide

/-- Witness for the amended C5 at the fully-reduced block
`[%2 = mul %v0, %v5]`. -/
theorem runOnBasicBlock_fixed_point_witness :
    scanBlock [⟨2, .mul, .var 0, .var 5⟩] =
        some ([⟨2, .mul, .var 0, .var 5⟩], [], 3) ∧
      runOnBasicBlock [⟨2, .mul, .var 0, .var 5⟩] =
        some ([⟨2, .mul, .var 0, .var 5⟩], true) :=
  ⟨by decide, runOnBasicBlock_fixed_point _ 3 (by decide)⟩

/-- C4 (amended): `LocalOpts::run` processes functions in order only up to
and including the first one that reports a transformation; the functions
after it are returned untouched, and the result signals "invalidate
analyses".  (Blockless functions report `false`, so they are passed over.) -/
theorem localOptsRun_early_stop (fs gs : List (List (List Inst)))
    (F F1 : List (List Inst)) (h1 : ∀ G ∈ fs, G = [])
    (h2 : runOnFunction F = some (F1, true)) :
    localOptsRun (fs ++ F :: gs) = some (fs ++ F1 :: gs, true) := by
  induction fs with
  | nil =>
    simp only [List.nil_append]
    unfold localOptsRun
    rw [h2]
    rfl
  | cons G fs ih =>
    have hG : G = [] := h1 G (List.mem_cons_self _ _)
    subst hG
    have ihh := ih (fun G hG => h1 G (List.mem_cons_of_mem _ hG))
    simp only [List.cons_append]
    unfold localOptsRun
    rw [show runOnFunction [] = some ([], false) from rfl, ihh]
    rfl

/-- C4 (counterexample): in a two-function module where the first function's
block is rewritten, the entry point returns before visiting the second
function: the `mul %v0, 8` block of the second function comes back
untouched, although `runOnBasicBlock` would rewrite it to a shift. -/
theorem localOptsRun_skips_later_functions :
    localOptsRun
        [[[⟨1, .add, .var 0, .const 0⟩]], [[⟨1, .mul, .var 0, .const 8⟩]]] =
        some ([[[]], [[⟨1, .mul, .var 0, .const 8⟩]]], true) ∧
      runOnBasicBlock [⟨1, .mul, .var 0, .const 8⟩] =
        some ([⟨2, .shl, .var 0, .const 3⟩], true) := by
  decide

/-- Witness for the amended C4: no earlier functions, a transformed first
function, one skipped function after it. -/
theorem localOptsRun_early_stop_witness :
    runOnFunction [[⟨1, .add, .var 0, .const 0⟩]] = some ([[]], true) ∧
      localOptsRun
          [[[⟨1, .add, .var 0, .const 0⟩]], [[⟨1, .mul, .var 0, .const 8⟩]]] =
        some ([[[]], [[⟨1, .mul, .var 0, .const 8⟩]]], true) :=
  ⟨by decide,
    localOptsRun_early_stop [] [[[⟨1, .mul, .var 0, .const 8⟩]]]
      [[⟨1, .add, .var 0, .const 0⟩]] [[]] (by simp) (by decide)⟩

/-- C1 (code bug): `%1 = add 5, %v0` (constant in slot 0) consumed by
`%2 = sub %1, 5` (constant in slot 1) is exactly the cancellation pattern
the claim describes, but line 115 reads `%2`'s operand at `%1`'s constant
slot — the non-constant `%1` — so `dyn_cast<ConstantInt>` yields null and
`->getValue()` dereferences it: undefined behaviour (`none`), not a
cancellation. -/
theorem multiInstructionOptimization_slot_crash :
    multiInstructionOptimization ⟨1, .add, .const 5, .var 0⟩
        [⟨1, .add, .const 5, .var 0⟩, ⟨2, .sub, .inst 1, .const 5⟩] [] =
        none ∧
      runOnBasicBlock
        [⟨1, .add, .const 5, .var 0⟩, ⟨2, .sub, .inst 1, .const 5⟩] = none := by
  decide

/-- C2 (code bug): for `mul %v0, 3` the remainder is `r = 3 - 4 = -1 < 0`,
so the claim requires a Sub correction, `(%v0 << 2) - %v0`.  But
`Rest.ugt(0)` compares the 32-bit value `0xFFFFFFFF` unsigned, so the code
creates an Add: the block becomes `(%v0 << 2) + %v0`, which computes `5*%v0`
instead of `3*%v0`. -/
theorem strengthReduction_negative_rest_creates_add :
    strengthReduction ⟨1, .mul, .var 0, .const 3⟩
        [⟨1, .mul, .var 0, .const 3⟩] 2 =
      some (true,
        [⟨1, .mul, .var 0, .const 3⟩, ⟨2, .shl, .var 0, .const 2⟩,
          ⟨3, .add, .inst 2, .var 0⟩],
        4, [2, 3]) := by
  decide

/-- C10 (code bug): in `[%1 = sdiv %v0, 5; %2 = mul %1, 5]`, instruction
`%2` is first marked dead as the cancelling consumer of `%1`, and when the
forward scan reaches `%2` strength reduction (5 = 4 + 1) matches it and
marks it again: the removal list ends as `[2, 2]`, and the erase loop calls
`eraseFromParent` on `%2` twice — undefined behaviour (`none`). -/
theorem scan_double_marks_instruction :
    scanBlock [⟨1, .sdiv, .var 0, .const 5⟩, ⟨2, .mul, .inst 1, .const 5⟩] =
        some ([⟨1, .sdiv, .var 0, .const 5⟩, ⟨2, .mul, .inst 1, .const 5⟩,
          ⟨3, .shl, .inst 1, .const 2⟩, ⟨4, .add, .inst 3, .inst 1⟩],
          [2, 2], 5) ∧
      runOnBasicBlock
        [⟨1, .sdiv, .var 0, .const 5⟩, ⟨2, .mul, .inst 1, .const 5⟩] =
        none := by
  decide

theorem flog2Aux_le (f : Nat) : ∀ n, 1 ≤ n → 2 ^ flog2Aux f n ≤ n := by
  induction f with
  | zero =>
    intro n hn
    simpa [flog2Aux] using hn
  | succ f ih =>
    intro n hn
    unfold flog2Aux
    split
    · simpa using hn
    · rename_i h
      have h2 : 2 ≤ n := by omega
      have hh : 1 ≤ n / 2 := by omega
      have hrec := ih (n / 2) hh
      rw [pow_succ]
      omega

theorem nearestLogBase2_le (c : Nat) (h1 : 1 ≤ c) (h2 : c < 2 ^ 31) :
    nearestLogBase2 c ≤ 31 := by
  have hf : flog2 c ≤ 30 := by
    by_contra hcon
    push_neg at hcon
    have hp : (2 : Nat) ^ 31 ≤ 2 ^ flog2 c :=
      Nat.pow_le_pow_right (by norm_num) (by omega)
    have hle : 2 ^ flog2 c ≤ c := flog2Aux_le 33 c h1
    omega
  have hb : (c / 2 ^ (flog2 c - 1)) % 2 < 2 := Nat.mod_lt _ (by norm_num)
  simp only [nearestLogBase2]
  split <;> omega

theorem rest_zero_iff (c : Nat) (h1 : 1 ≤ c) (h2 : c < 2 ^ 31) :
    ((c + (2 ^ 32 - 2 ^ nearestLogBase2 c)) % 2 ^ 32 = 0 ↔
      c = 2 ^ nearestLogBase2 c) := by
  have hk : nearestLogBase2 c ≤ 31 := nearestLogBase2_le c h1 h2
  have hp1 : 1 ≤ 2 ^ nearestLogBase2 c := Nat.one_le_two_pow
  have hp2 : (2 : Nat) ^ nearestLogBase2 c ≤ 2 ^ 31 :=
    Nat.pow_le_pow_right (by norm_num) hk
  have e31 : (2 : Nat) ^ 31 = 2147483648 := by norm_num
  have e32 : (2 : Nat) ^ 32 = 4294967296 := by norm_num
  rw [e32]
  rw [e31] at h2 hp2
  omega

/-- On the positive signed constants (`1 ≤ c < 2 ^ 31`) `strengthReduction`
rejects — reporting no match and leaving the block unchanged — whenever the
remainder `r = c - 2 ^ k` has magnitude greater than one, and, for
SignedDiv, whenever `r ≠ 0`; on this domain a SignedDiv by a constant that
is no exact power of two is never rewritten.  Negative signed constants
behave differently (the bit pattern is handled as unsigned); see the C6
theorem below. -/
theorem strengthReduction_reject (I : Inst) (B : List Inst) (fresh : Nat)
    (c : Nat) (hop : I.opcode = .mul ∨ I.opcode = .sdiv)
    (hm : checkOperands I = true)
    (hc : getConst (if isConstV I.op0 then I.op0 else I.op1) = some c)
    (h1 : 1 ≤ c) (h2 : c < 2 ^ 31) :
    (1 < uabs ((c + (2 ^ 32 - 2 ^ nearestLogBase2 c)) % 2 ^ 32) →
      strengthReduction I B fresh = some (false, B, fresh, [])) ∧
    (I.opcode = .sdiv → (c + (2 ^ 32 - 2 ^ nearestLogBase2 c)) % 2 ^ 32 ≠ 0 →
      strengthReduction I B fresh = some (false, B, fresh, [])) ∧
    (I.opcode = .sdiv → (∀ j : Nat, c ≠ 2 ^ j) →
      strengthReduction I B fresh = some (false, B, fresh, [])) := by
  have hb : isBinary I.opcode = true := by
    rcases hop with h | h <;> simp [h, isBinary]
  have hk : ¬(32 ≤ nearestLogBase2 c) := by
    have := nearestLogBase2_le c h1 h2
    omega
  have hc0 : ¬(c = 0) := by omega
  have hop2 : ¬(I.opcode ≠ .mul ∧ I.opcode ≠ .sdiv) := by
    rcases hop with h | h <;> simp [h]
  have e32 : (2 : Nat) ^ 32 = 4294967296 := by norm_num
  have main : (c + (2 ^ 32 - 2 ^ nearestLogBase2 c)) % 2 ^ 32 ≠ 0 →
      I.opcode = .sdiv →
      strengthReduction I B fresh = some (false, B, fresh, []) := by
    intro hne hsd
    rw [e32] at hne
    simp [strengthReduction, hb, hm, hc, hop2, hc0, hk, hsd]
    intro hle
    exact fun _ => hne
  refine ⟨?_, fun hsd hne => main hne hsd, ?_⟩
  · intro hgt
    rw [e32] at hgt
    simp [strengthReduction, hb, hm, hc, hop2, hc0, hk]
    intro hle
    exact absurd hgt (by omega)
  · intro hsd hpow
    exact main (fun h0 => hpow _ ((rest_zero_iff c h1 h2).1 h0)) hsd

/-- Instance of the rejection lemma: `sdiv %v0, 6` has `k = 3`, `r = -2`,
so both the magnitude test and the SignedDiv test reject; nothing is
rewritten. -/
theorem strengthReduction_reject_witness :
    checkOperands ⟨1, .sdiv, .var 0, .const 6⟩ = true ∧
      strengthReduction ⟨1, .sdiv, .var 0, .const 6⟩
          [⟨1, .sdiv, .var 0, .const 6⟩] 2 =
        some (false, [⟨1, .sdiv, .var 0, .const 6⟩], 2, []) :=
  ⟨by decide,
    (strengthReduction_reject ⟨1, .sdiv, .var 0, .const 6⟩
        [⟨1, .sdiv, .var 0, .const 6⟩] 2 6 (Or.inr rfl) (by decide) (by decide)
        (by decide) (by decide)).1 (by decide)⟩

/-- C6 (code bug): the claim demands that a SignedDiv by any constant that
is not exactly a power of two is never rewritten, and that every `|r| > 1`
or `r ≠ 0` case is rejected with the block left unmodified.  That holds on
the positive signed constants, but the code handles the signed constant as
an unsigned `APInt`.  For `sdiv %v0, -2147483648` (INT_MIN, bit pattern
`2 ^ 31`) `nearestLogBase2` is 31 and the remainder is 0, so the division
is rewritten to `ashr %v0, 31` although `-2 ^ 31` is not a power of two —
a miscompilation: for `%v0 = -2 ^ 31` the sdiv yields 1 while the
arithmetic shift yields -1.  For `sdiv %v0, -5` (bit pattern 4294967291)
`nearestLogBase2` is 32, so the C++ `1 << 32` is undefined behaviour
(`none`) instead of the claimed clean rejection. -/
theorem strengthReduction_negative_divisor_bug :
    strengthReduction ⟨1, .sdiv, .var 0, .const 2147483648⟩
        [⟨1, .sdiv, .var 0, .const 2147483648⟩] 2 =
      some (true,
        [⟨1, .sdiv, .var 0, .const 2147483648⟩,
          ⟨2, .ashr, .var 0, .const 31⟩],
        3, [2]) ∧
      strengthReduction ⟨1, .sdiv, .var 0, .const 4294967291⟩
        [⟨1, .sdiv, .var 0, .const 4294967291⟩] 2 = none := by
  decide

theorem rauw_map_id (B : List Inst) (i : Nat) (v : Value) :
    (rauw B i v).map (·.id) = B.map (·.id) := by
  induction B with
  | nil => rfl
  | cons K rest ih =>
    simp only [rauw, List.map_cons] at ih ⊢
    rw [ih]
    rfl

theorem lookupId_mem {B : List Inst} {i : Nat} {J : Inst}
    (h : lookupId B i = some J) : J ∈ B :=
  List.mem_of_find?_eq_some h

theorem lookupId_id {B : List Inst} {i : Nat} {J : Inst}
    (h : lookupId B i = some J) : J.id = i := by
  have := List.find?_some h
  simpa using this

theorem mem_rauw {B : List Inst} {i : Nat} {v : Value} {J : Inst}
    (h : J ∈ rauw B i v) : ∃ K ∈ B, J = rauwInst i v K := by
  rcases List.mem_map.1 h with ⟨K, hK, rfl⟩
  exact ⟨K, hK, rfl⟩

theorem usesOf_eq_nil {B : List Inst} {t : Nat} :
    usesOf B t = [] ↔ ∀ J ∈ B, usesV J (.inst t) = false := by
  simp [usesOf, List.filter_eq_nil_iff]

theorem markedDead_push {B : List Inst} {tr : List Nat} {i : Nat}
    (h1 : markedDead B tr) (h2 : usesOf B i = []) :
    markedDead B (tr ++ [i]) := by
  intro t ht
  rcases List.mem_append.1 ht with ht | ht
  · exact h1 t ht
  · rw [List.mem_singleton] at ht
    subst ht
    exact h2

theorem rauwV_ne_of {i : Nat} {v w : Value} {t : Nat}
    (hv : v ≠ .inst t) (hw : w ≠ .inst t) : rauwV i v w ≠ .inst t := by
  unfold rauwV
  split
  · exact hv
  · exact hw

theorem markedDead_rauw {B : List Inst} {tr : List Nat} {i : Nat} {v : Value}
    (hmd : markedDead B tr) (hv : ∀ t ∈ tr, v ≠ .inst t) :
    markedDead (rauw B i v) tr := by
  intro t ht
  rw [usesOf_eq_nil]
  intro J hJ
  rcases mem_rauw hJ with ⟨K, hK, rfl⟩
  have hKt : usesV K (.inst t) = false := usesOf_eq_nil.1 (hmd t ht) K hK
  simp only [usesV, Bool.or_eq_false_iff, decide_eq_false_iff_not] at hKt
  simp only [usesV, rauwInst, Bool.or_eq_false_iff, decide_eq_false_iff_not]
  exact ⟨rauwV_ne_of (hv t ht) hKt.1, rauwV_ne_of (hv t ht) hKt.2⟩

theorem rank_lt_of_uses0 {rank : Nat → Nat} {K : Inst} (hK : rankOk rank K)
    {i : Nat} (h : K.op0 = .inst i) : rank i < rank K.id := by
  have h0 := hK.1
  rw [h] at h0
  exact h0

theorem rank_lt_of_uses1 {rank : Nat → Nat} {K : Inst} (hK : rankOk rank K)
    {i : Nat} (h : K.op1 = .inst i) : rank i < rank K.id := by
  have h1 := hK.2
  rw [h] at h1
  exact h1

theorem opRankOk_of_operand {rank : Nat → Nat} {I : Inst} (hI : rankOk rank I)
    {v : Value} (hv : v = I.op0 ∨ v = I.op1) :
    ∀ m, v = .inst m → rank m < rank I.id := by
  intro m hm
  rcases hv with rfl | rfl
  · exact rank_lt_of_uses0 hI hm
  · exact rank_lt_of_uses1 hI hm

theorem opRankOk_rauwV {rank : Nat → Nat} {i jid : Nat} {v w : Value}
    (hw : opRankOk rank jid w)
    (hv : ∀ m, v = .inst m → w = .inst i → rank m < rank jid) :
    opRankOk rank jid (rauwV i v w) := by
  unfold rauwV
  split
  · rename_i heq
    cases hvv : v with
    | const n => exact trivial
    | var n => exact trivial
    | inst m => exact hv m hvv heq
  · exact hw

theorem rankOk_rauwInst {rank : Nat → Nat} {i : Nat} {v : Value} {K : Inst}
    (hK : rankOk rank K)
    (hv0 : ∀ m, v = .inst m → K.op0 = .inst i → rank m < rank K.id)
    (hv1 : ∀ m, v = .inst m → K.op1 = .inst i → rank m < rank K.id) :
    rankOk rank (rauwInst i v K) :=
  ⟨opRankOk_rauwV hK.1 hv0, opRankOk_rauwV hK.2 hv1⟩

theorem instBound_parts {K : Inst} {f : Nat} (h : instBound K ≤ f) :
    K.id < f ∧ refBound K.op0 ≤ f ∧ refBound K.op1 ≤ f := by
  unfold instBound at h
  omega

theorem id_lt_of_below {f : Nat} {B : List Inst} (h : belowF f B) {I : Inst}
    (hI : I ∈ B) : I.id < f :=
  (instBound_parts (h I hI)).1

theorem refBound_le_of_operand {f : Nat} {I : Inst} (h : instBound I ≤ f)
    {v : Value} (hv : v = I.op0 ∨ v = I.op1) : refBound v ≤ f := by
  rcases hv with rfl | rfl
  · exact (instBound_parts h).2.1
  · exact (instBound_parts h).2.2

theorem refBound_rauwV (i : Nat) (v w : Value) :
    refBound (rauwV i v w) ≤ max (refBound v) (refBound w) := by
  unfold rauwV
  split
  · exact le_max_left _ _
  · exact le_max_right _ _

theorem belowF_rauw {f : Nat} {B : List Inst} {i : Nat} {v : Value}
    (hB : belowF f B) (hv : refBound v ≤ f) : belowF f (rauw B i v) := by
  intro J hJ
  rcases mem_rauw hJ with ⟨K, hK, rfl⟩
  have hKb : max (K.id + 1) (max (refBound K.op0) (refBound K.op1)) ≤ f :=
    hB K hK
  have e : instBound (rauwInst i v K) =
      max (K.id + 1)
        (max (refBound (rauwV i v K.op0)) (refBound (rauwV i v K.op1))) := rfl
  have a0 := refBound_rauwV i v K.op0
  have a1 := refBound_rauwV i v K.op1
  rw [e]
  omega

theorem operand_not_marked {B : List Inst} {tr : List Nat}
    (hmd : markedDead B tr) {I : Inst} (hI : I ∈ B) {v : Value}
    (hv : v = I.op0 ∨ v = I.op1) : ∀ t ∈ tr, v ≠ .inst t := by
  intro t ht hvt
  have h := usesOf_eq_nil.1 (hmd t ht) I hI
  rcases hv with rfl | rfl <;> simp [usesV, hvt] at h

theorem rauwInst_eq_self {i : Nat} {v : Value} {K : Inst}
    (h0 : K.op0 ≠ .inst i) (h1 : K.op1 ≠ .inst i) : rauwInst i v K = K := by
  have e0 : rauwV i v K.op0 = K.op0 := if_neg h0
  have e1 : rauwV i v K.op1 = K.op1 := if_neg h1
  unfold rauwInst
  rw [e0, e1]

theorem lookupId_rauw (B : List Inst) (i : Nat) (v : Value) (j : Nat) :
    lookupId (rauw B i v) j = (lookupId B j).map (rauwInst i v) := by
  induction B with
  | nil => rfl
  | cons K rest ih =>
    show lookupId (rauwInst i v K :: rauw rest i v) j = _
    unfold lookupId at ih ⊢
    rw [List.find?_cons, List.find?_cons]
    have e : ((rauwInst i v K).id == j) = (K.id == j) := rfl
    rw [e]
    cases h : (K.id == j)
    · exact ih
    · rfl

theorem mem_insertAfterId {B : List Inst} {i : Nat} {news : List Inst}
    {J : Inst} (h : J ∈ insertAfterId B i news) : J ∈ B ∨ J ∈ news := by
  induction B with
  | nil => simp [insertAfterId] at h
  | cons K rest ih =>
    unfold insertAfterId at h
    split at h
    · rcases List.mem_cons.1 h with rfl | h2
      · exact Or.inl (List.mem_cons_self _ _)
      · rcases List.mem_append.1 h2 with h3 | h3
        · exact Or.inr h3
        · exact Or.inl (List.mem_cons_of_mem _ h3)
    · rcases List.mem_cons.1 h with rfl | h2
      · exact Or.inl (List.mem_cons_self _ _)
      · rcases ih h2 with h3 | h3
        · exact Or.inl (List.mem_cons_of_mem _ h3)
        · exact Or.inr h3

theorem insertAfterId_map_id_sublist (B : List Inst) (i : Nat)
    (news : List Inst) :
    List.Sublist (B.map (·.id)) ((insertAfterId B i news).map (·.id)) := by
  induction B with
  | nil => simp [insertAfterId]
  | cons K rest ih =>
    unfold insertAfterId
    split
    · simp only [List.map_cons, List.map_append]
      exact (List.sublist_append_right _ _).cons₂ _
    · simp only [List.map_cons]
      exact ih.cons₂ _

theorem usesOf_insertAfterId_nil {B : List Inst} {i t : Nat}
    {news : List Inst} (hB : usesOf B t = [])
    (hnews : ∀ J ∈ news, usesV J (.inst t) = false) :
    usesOf (insertAfterId B i news) t = [] := by
  rw [usesOf_eq_nil] at hB ⊢
  intro J hJ
  rcases mem_insertAfterId hJ with h | h
  · exact hB J h
  · exact hnews J h

theorem nodup_insertAfterId {B : List Inst} {i : Nat} {news : List Inst}
    (hB : (B.map (·.id)).Nodup) (hnews : (news.map (·.id)).Nodup)
    (hdisj : ∀ J ∈ news, ∀ K ∈ B, J.id ≠ K.id) :
    ((insertAfterId B i news).map (·.id)).Nodup := by
  induction B with
  | nil => simp [insertAfterId]
  | cons K rest ih =>
    unfold insertAfterId
    split
    · simp only [List.map_cons, List.map_append, List.nodup_cons] at hB ⊢
      obtain ⟨hK, hrest⟩ := hB
      constructor
      · intro hmem
        rcases List.mem_append.1 hmem with hmem | hmem
        · rcases List.mem_map.1 hmem with ⟨J, hJ, hJe⟩
          exact hdisj J hJ K (List.mem_cons_self _ _) hJe
        · exact hK hmem
      · rw [List.nodup_append]
        refine ⟨hnews, hrest, ?_⟩
        intro a ha hb
        rcases List.mem_map.1 ha with ⟨J, hJ, rfl⟩
        rcases List.mem_map.1 hb with ⟨L, hL, he⟩
        exact hdisj J hJ L (List.mem_cons_of_mem _ hL) he.symm
    · simp only [List.map_cons, List.nodup_cons] at hB ⊢
      obtain ⟨hK, hrest⟩ := hB
      refine ⟨?_, ih hrest
        (fun J hJ L hL => hdisj J hJ L (List.mem_cons_of_mem _ hL))⟩
      intro hmem
      rcases List.mem_map.1 hmem with ⟨J, hJ, hJe⟩
      rcases mem_insertAfterId hJ with h3 | h3
      · exact hK (List.mem_map.2 ⟨J, h3, hJe⟩)
      · exact hdisj J h3 K (List.mem_cons_self _ _) hJe

theorem eq_of_mem_of_id_eq {B : List Inst} (hnd : (B.map (·.id)).Nodup)
    {J K : Inst} (hJ : J ∈ B) (hK : K ∈ B) (h : J.id = K.id) : J = K :=
  List.inj_on_of_nodup_map hnd hJ hK h

theorem le_foldr_max (l : List Nat) : ∀ a ∈ l, a ≤ l.foldr max 0 := by
  induction l with
  | nil => intro a ha; cases ha
  | cons b l ih =>
    intro a ha
    rcases List.mem_cons.1 ha with rfl | ha
    · exact le_max_left _ _
    · exact le_trans (ih a ha) (le_max_right _ _)

theorem belowF_freshOf (B : List Inst) : belowF (freshOf B) B :=
  fun _ hI => le_foldr_max _ _ (List.mem_map_of_mem instBound hI)

theorem eraseAll_sublist : ∀ (ts : List Nat) (B B' : List Inst),
    eraseAll B ts = some B' → List.Sublist B' B := by
  intro ts
  induction ts with
  | nil =>
    intro B B' h
    simp only [eraseAll, Option.some.injEq] at h
    subst h
    exact List.Sublist.refl _
  | cons t ts ih =>
    intro B B' h
    simp only [eraseAll] at h
    split at h
    · exact absurd h (by simp)
    · rename_i B1 heq
      have h1 : List.Sublist B1 B := by
        unfold eraseId at heq
        split at heq
        · injection heq with heq
          subst heq
          exact List.eraseP_sublist _
        · exact absurd heq (by simp)
      exact (ih _ _ h).trans h1

theorem usesOf_sublist_nil {B B' : List Inst} {t : Nat}
    (hsub : List.Sublist B' B) (h : usesOf B t = []) : usesOf B' t = [] := by
  have h2 := List.Sublist.filter (fun J => usesV J (.inst t)) hsub
  unfold usesOf at h ⊢
  rw [h] at h2
  exact List.sublist_nil.1 h2

theorem scanInv_mark_rauw_operand {B : List Inst} {tr : List Nat} {f : Nat}
    {I : Inst} {v : Value} (hinv : scanInv B tr f) (hI : I ∈ B)
    (hv : v = I.op0 ∨ v = I.op1) :
    scanInv (rauw B I.id v) (tr ++ [I.id]) f := by
  obtain ⟨⟨rank, hrank⟩, hbel, hmd, htr, hnd⟩ := hinv
  have hvI : ∀ m, v = .inst m → rank m < rank I.id :=
    opRankOk_of_operand (hrank I hI) hv
  refine ⟨⟨rank, ?_⟩,
    belowF_rauw hbel (refBound_le_of_operand (hbel I hI) hv),
    markedDead_push (markedDead_rauw hmd (operand_not_marked hmd hI hv))
      (usesOf_rauw_self _ _ _ (fun h => lt_irrefl _ (hvI I.id h))),
    ?_, by rw [rauw_map_id]; exact hnd⟩
  · intro X hX
    rcases mem_rauw hX with ⟨K, hK, rfl⟩
    refine rankOk_rauwInst (hrank K hK) ?_ ?_
    · exact fun m hm h => lt_trans (hvI m hm) (rank_lt_of_uses0 (hrank K hK) h)
    · exact fun m hm h => lt_trans (hvI m hm) (rank_lt_of_uses1 (hrank K hK) h)
  · intro t ht
    rcases List.mem_append.1 ht with ht | ht
    · exact htr t ht
    · rw [List.mem_singleton] at ht
      subst ht
      exact id_lt_of_below hbel hI

theorem scanInv_cancel_rauw {B : List Inst} {tr : List Nat} {f : Nat}
    {I J : Inst} {v : Value} (hinv : scanInv B tr f) (hI : I ∈ B) (hJ : J ∈ B)
    (huse : usesV J (.inst I.id) = true) (hv : v = I.op0 ∨ v = I.op1) :
    scanInv (rauw B J.id v) (tr ++ [J.id]) f := by
  obtain ⟨⟨rank, hrank⟩, hbel, hmd, htr, hnd⟩ := hinv
  have hIJ : rank I.id < rank J.id := by
    simp only [usesV, Bool.or_eq_true, decide_eq_true_eq] at huse
    rcases huse with h | h
    · exact rank_lt_of_uses0 (hrank J hJ) h
    · exact rank_lt_of_uses1 (hrank J hJ) h
  have hvI : ∀ m, v = .inst m → rank m < rank I.id :=
    opRankOk_of_operand (hrank I hI) hv
  have hvJ : ∀ m, v = .inst m → rank m < rank J.id :=
    fun m hm => lt_trans (hvI m hm) hIJ
  refine ⟨⟨rank, ?_⟩,
    belowF_rauw hbel (refBound_le_of_operand (hbel I hI) hv),
    markedDead_push (markedDead_rauw hmd (operand_not_marked hmd hI hv))
      (usesOf_rauw_self _ _ _ (fun h => lt_irrefl _ (hvJ J.id h))),
    ?_, by rw [rauw_map_id]; exact hnd⟩
  · intro X hX
    rcases mem_rauw hX with ⟨K, hK, rfl⟩
    refine rankOk_rauwInst (hrank K hK) ?_ ?_
    · exact fun m hm h => lt_trans (hvJ m hm) (rank_lt_of_uses0 (hrank K hK) h)
    · exact fun m hm h => lt_trans (hvJ m hm) (rank_lt_of_uses1 (hrank K hK) h)
  · intro t ht
    rcases List.mem_append.1 ht with ht | ht
    · exact htr t ht
    · rw [List.mem_singleton] at ht
      subst ht
      exact id_lt_of_below hbel hJ

theorem opRankOk_rankExt_old {rank : Nat → Nat} {f a jid : Nat} {w : Value}
    (hw : opRankOk rank jid w) (hjid : jid < f) (hwb : refBound w ≤ f) :
    opRankOk (rankExt rank f a) jid w := by
  cases hc : w with
  | const n => exact trivial
  | var n => exact trivial
  | inst m =>
    rw [hc] at hw hwb
    have h1 : rank m < rank jid := hw
    have h2 : m < f := by simp only [refBound] at hwb; omega
    show rankExt rank f a m < rankExt rank f a jid
    unfold rankExt
    split_ifs
    all_goals omega

theorem rankOk_rankExt_old {rank : Nat → Nat} {f a : Nat} {K : Inst}
    (hK : rankOk rank K) (hbK : instBound K ≤ f) :
    rankOk (rankExt rank f a) K := by
  obtain ⟨hid, h0b, h1b⟩ := instBound_parts hbK
  exact ⟨opRankOk_rankExt_old hK.1 hid h0b, opRankOk_rankExt_old hK.2 hid h1b⟩

theorem opRankOk_rankExt_new {rank : Nat → Nat} {f e : Nat} {I : Inst}
    {v : Value} (hvI : ∀ m, v = .inst m → rank m < rank I.id)
    (hvb : refBound v ≤ f) (he : f ≤ e) (he2 : e ≤ f + 1) :
    opRankOk (rankExt rank f (rank I.id)) e v := by
  cases hc : v with
  | const n => exact trivial
  | var n => exact trivial
  | inst m =>
    rw [hc] at hvI hvb
    have h1 : rank m < rank I.id := hvI m rfl
    have h2 : m < f := by simp only [refBound] at hvb; omega
    show rankExt rank f (rank I.id) m < rankExt rank f (rank I.id) e
    unfold rankExt
    split_ifs <;> omega

theorem scanInv_strength1 {B : List Inst} {tr : List Nat} {f : Nat} {I : Inst}
    {v : Value} {so : Opcode} {kc : Nat}
    (hinv : scanInv B tr f) (hI : I ∈ B) (hv : v = I.op0 ∨ v = I.op1) :
    scanInv
      (rauw (insertAfterId B I.id [⟨f, so, v, .const kc⟩]) I.id (.inst f))
      (tr ++ [I.id]) (f + 1) := by
  obtain ⟨⟨rank, hrank⟩, hbel, hmd, htr, hnd⟩ := hinv
  have hIf : I.id < f := id_lt_of_below hbel hI
  have hvb : refBound v ≤ f := refBound_le_of_operand (hbel I hI) hv
  have hvI : ∀ m, v = .inst m → rank m < rank I.id :=
    opRankOk_of_operand (hrank I hI) hv
  have hvne : v ≠ .inst I.id := fun h => lt_irrefl _ (hvI I.id h)
  have hvtr : ∀ t ∈ tr, v ≠ .inst t := operand_not_marked hmd hI hv
  have hmemC : ∀ K ∈ insertAfterId B I.id [⟨f, so, v, .const kc⟩],
      K ∈ B ∨ K = ⟨f, so, v, .const kc⟩ := by
    intro K hK
    rcases mem_insertAfterId hK with h | h
    · exact Or.inl h
    · rw [List.mem_singleton] at h
      exact Or.inr h
  refine ⟨⟨rankExt rank f (rank I.id), ?_⟩, ?_, ?_, ?_, ?_⟩
  · intro X hX
    rcases mem_rauw hX with ⟨K, hK, rfl⟩
    have hKok : rankOk (rankExt rank f (rank I.id)) K := by
      rcases hmemC K hK with h | h
      · exact rankOk_rankExt_old (hrank K h) (hbel K h)
      · subst h
        refine ⟨?_, trivial⟩
        show opRankOk (rankExt rank f (rank I.id)) f v
        exact opRankOk_rankExt_new hvI hvb le_rfl (by omega)
    refine rankOk_rauwInst hKok ?_ ?_
    · intro m hm h0
      injection hm with hm
      subst hm
      rcases hmemC K hK with h | h
      · have hlt := rank_lt_of_uses0 (hrank K h) h0
        have hKf : K.id < f := (instBound_parts (hbel K h)).1
        show rankExt rank f (rank I.id) f < rankExt rank f (rank I.id) K.id
        unfold rankExt
        split_ifs <;> omega
      · subst h
        exact absurd h0 hvne
    · intro m hm h1
      injection hm with hm
      subst hm
      rcases hmemC K hK with h | h
      · have hlt := rank_lt_of_uses1 (hrank K h) h1
        have hKf : K.id < f := (instBound_parts (hbel K h)).1
        show rankExt rank f (rank I.id) f < rankExt rank f (rank I.id) K.id
        unfold rankExt
        split_ifs <;> omega
      · subst h
        exact Value.noConfusion h1
  · have hbelC :
        belowF (f + 1) (insertAfterId B I.id [⟨f, so, v, .const kc⟩]) := by
      intro K hK
      rcases hmemC K hK with h | h
      · exact le_trans (hbel K h) (by omega)
      · subst h
        show max (f + 1) (max (refBound v) (refBound (.const kc))) ≤ f + 1
        have h0 : refBound (Value.const kc) = 0 := rfl
        rw [h0]
        omega
    exact belowF_rauw hbelC le_rfl
  · have hmdC : markedDead (insertAfterId B I.id [⟨f, so, v, .const kc⟩]) tr := by
      intro t ht
      refine usesOf_insertAfterId_nil (hmd t ht) ?_
      intro J hJ
      rw [List.mem_singleton] at hJ
      subst hJ
      simp only [usesV, Bool.or_eq_false_iff, decide_eq_false_iff_not]
      exact ⟨hvtr t ht, fun hx => Value.noConfusion hx⟩
    refine markedDead_push (markedDead_rauw hmdC ?_) (usesOf_rauw_self _ _ _ ?_)
    · intro t ht hx
      have h1 := htr t ht
      have h2 := Value.inst.inj hx
      omega
    · intro hx
      have h2 := Value.inst.inj hx
      omega
  · intro t ht
    rcases List.mem_append.1 ht with ht | ht
    · have := htr t ht
      omega
    · rw [List.mem_singleton] at ht
      subst ht
      omega
  · rw [rauw_map_id]
    refine nodup_insertAfterId hnd (by simp) ?_
    intro J hJ K hK
    rw [List.mem_singleton] at hJ
    subst hJ
    have := (instBound_parts (hbel K hK)).1
    show f ≠ K.id
    omega

theorem scanInv_strength2 {B : List Inst} {tr : List Nat} {f : Nat} {I : Inst}
    {v : Value} {so ro : Opcode} {kc : Nat}
    (hinv : scanInv B tr f) (hI : I ∈ B) (hv : v = I.op0 ∨ v = I.op1) :
    scanInv
      (rauw (insertAfterId B I.id
          [⟨f, so, v, .const kc⟩, ⟨f + 1, ro, .inst f, v⟩]) I.id
        (.inst (f + 1)))
      (tr ++ [I.id]) (f + 2) := by
  obtain ⟨⟨rank, hrank⟩, hbel, hmd, htr, hnd⟩ := hinv
  have hIf : I.id < f := id_lt_of_below hbel hI
  have hvb : refBound v ≤ f := refBound_le_of_operand (hbel I hI) hv
  have hvI : ∀ m, v = .inst m → rank m < rank I.id :=
    opRankOk_of_operand (hrank I hI) hv
  have hvne : v ≠ .inst I.id := fun h => lt_irrefl _ (hvI I.id h)
  have hvtr : ∀ t ∈ tr, v ≠ .inst t := operand_not_marked hmd hI hv
  have hmemC : ∀ K ∈ insertAfterId B I.id
      [⟨f, so, v, .const kc⟩, ⟨f + 1, ro, .inst f, v⟩],
      K ∈ B ∨ K = ⟨f, so, v, .const kc⟩ ∨ K = ⟨f + 1, ro, .inst f, v⟩ := by
    intro K hK
    rcases mem_insertAfterId hK with h | h
    · exact Or.inl h
    · rcases List.mem_cons.1 h with h | h
      · exact Or.inr (Or.inl h)
      · rw [List.mem_singleton] at h
        exact Or.inr (Or.inr h)
  refine ⟨⟨rankExt rank f (rank I.id), ?_⟩, ?_, ?_, ?_, ?_⟩
  · intro X hX
    rcases mem_rauw hX with ⟨K, hK, rfl⟩
    have hKok : rankOk (rankExt rank f (rank I.id)) K := by
      rcases hmemC K hK with h | h | h
      · exact rankOk_rankExt_old (hrank K h) (hbel K h)
      · subst h
        refine ⟨?_, trivial⟩
        show opRankOk (rankExt rank f (rank I.id)) f v
        exact opRankOk_rankExt_new hvI hvb le_rfl (by omega)
      · subst h
        constructor
        · show rankExt rank f (rank I.id) f < rankExt rank f (rank I.id) (f + 1)
          unfold rankExt
          split_ifs <;> omega
        · show opRankOk (rankExt rank f (rank I.id)) (f + 1) v
          exact opRankOk_rankExt_new hvI hvb (by omega) le_rfl
    refine rankOk_rauwInst hKok ?_ ?_
    · intro m hm h0
      injection hm with hm
      subst hm
      rcases hmemC K hK with h | h | h
      · have hlt := rank_lt_of_uses0 (hrank K h) h0
        have hKf : K.id < f := (instBound_parts (hbel K h)).1
        show rankExt rank f (rank I.id) (f + 1) < rankExt rank f (rank I.id) K.id
        unfold rankExt
        split_ifs <;> omega
      · subst h
        exact absurd h0 hvne
      · subst h
        have := Value.inst.inj h0
        omega
    · intro m hm h1
      injection hm with hm
      subst hm
      rcases hmemC K hK with h | h | h
      · have hlt := rank_lt_of_uses1 (hrank K h) h1
        have hKf : K.id < f := (instBound_parts (hbel K h)).1
        show rankExt rank f (rank I.id) (f + 1) < rankExt rank f (rank I.id) K.id
        unfold rankExt
        split_ifs <;> omega
      · subst h
        exact Value.noConfusion h1
      · subst h
        exact absurd h1 hvne
  · have hbelC : belowF (f + 2) (insertAfterId B I.id
        [⟨f, so, v, .const kc⟩, ⟨f + 1, ro, .inst f, v⟩]) := by
      intro K hK
      rcases hmemC K hK with h | h | h
      · exact le_trans (hbel K h) (by omega)
      · subst h
        show max (f + 1) (max (refBound v) (refBound (.const kc))) ≤ f + 2
        have h0 : refBound (Value.const kc) = 0 := rfl
        rw [h0]
        omega
      · subst h
        show max (f + 2) (max (refBound (.inst f)) (refBound v)) ≤ f + 2
        have h0 : refBound (Value.inst f) = f + 1 := rfl
        rw [h0]
        omega
    exact belowF_rauw hbelC le_rfl
  · have hmdC : markedDead (insertAfterId B I.id
        [⟨f, so, v, .const kc⟩, ⟨f + 1, ro, .inst f, v⟩]) tr := by
      intro t ht
      have htf : t < f := htr t ht
      refine usesOf_insertAfterId_nil (hmd t ht) ?_
      intro J hJ
      rcases List.mem_cons.1 hJ with rfl | hJ
      · simp only [usesV, Bool.or_eq_false_iff, decide_eq_false_iff_not]
        exact ⟨hvtr t ht, fun hx => Value.noConfusion hx⟩
      · rw [List.mem_singleton] at hJ
        subst hJ
        simp only [usesV, Bool.or_eq_false_iff, decide_eq_false_iff_not]
        refine ⟨?_, hvtr t ht⟩
        intro hx
        have := Value.inst.inj hx
        omega
    refine markedDead_push (markedDead_rauw hmdC ?_) (usesOf_rauw_self _ _ _ ?_)
    · intro t ht hx
      have h1 := htr t ht
      have h2 := Value.inst.inj hx
      omega
    · intro hx
      have h2 := Value.inst.inj hx
      omega
  · intro t ht
    rcases List.mem_append.1 ht with ht | ht
    · have := htr t ht
      omega
    · rw [List.mem_singleton] at ht
      subst ht
      omega
  · rw [rauw_map_id]
    refine nodup_insertAfterId hnd (by simp) ?_
    intro J hJ K hK
    have hKf := (instBound_parts (hbel K hK)).1
    rcases List.mem_cons.1 hJ with rfl | hJ
    · show f ≠ K.id
      omega
    · rw [List.mem_singleton] at hJ
      subst hJ
      show f + 1 ≠ K.id
      omega

theorem variable_opnd_or (I : Inst) :
    (if isConstV I.op0 then I.op1 else I.op0) = I.op0 ∨
      (if isConstV I.op0 then I.op1 else I.op0) = I.op1 := by
  by_cases h : isConstV I.op0 <;> simp [h]

theorem algebraicIdentity_inversion {I : Inst} {B : List Inst} {m : Bool}
    {B1 : List Inst} (h : algebraicIdentity I B = some (m, B1)) :
    (m = false ∧ B1 = B) ∨
      (m = true ∧ ∃ v, (v = I.op0 ∨ v = I.op1) ∧ B1 = rauw B I.id v) := by
  unfold algebraicIdentity at h
  split at h
  · simp only [Option.some.injEq, Prod.mk.injEq] at h
    exact Or.inl ⟨h.1.symm, h.2.symm⟩
  · split at h
    · exact absurd h (by simp)
    · split at h
      · simp only [Option.some.injEq, Prod.mk.injEq] at h
        exact Or.inr ⟨h.1.symm, _, variable_opnd_or I, h.2.symm⟩
      · simp only [Option.some.injEq, Prod.mk.injEq] at h
        exact Or.inl ⟨h.1.symm, h.2.symm⟩

theorem strengthReduction_inversion {I : Inst} {B : List Inst} {f : Nat}
    {m : Bool} {B2 : List Inst} {f2 : Nat} {new : List Nat}
    (h : strengthReduction I B f = some (m, B2, f2, new)) :
    (m = false ∧ B2 = B ∧ f2 = f ∧ new = []) ∨
      (m = true ∧ ∃ v, (v = I.op0 ∨ v = I.op1) ∧
        ((∃ so kc, B2 = rauw (insertAfterId B I.id [⟨f, so, v, .const kc⟩])
              I.id (.inst f) ∧ f2 = f + 1 ∧ new = [f]) ∨
          (∃ so ro kc, B2 = rauw (insertAfterId B I.id
                [⟨f, so, v, .const kc⟩, ⟨f + 1, ro, .inst f, v⟩]) I.id
              (.inst (f + 1)) ∧ f2 = f + 2 ∧ new = [f, f + 1]))) := by
  simp only [strengthReduction] at h
  split at h
  · simp only [Option.some.injEq, Prod.mk.injEq] at h
    exact Or.inl ⟨h.1.symm, h.2.1.symm, h.2.2.1.symm, h.2.2.2.symm⟩
  · split at h
    · simp only [Option.some.injEq, Prod.mk.injEq] at h
      exact Or.inl ⟨h.1.symm, h.2.1.symm, h.2.2.1.symm, h.2.2.2.symm⟩
    · split at h
      · exact absurd h (by simp)
      · split at h
        · exact absurd h (by simp)
        · split at h
          · exact absurd h (by simp)
          · split at h
            · simp only [Option.some.injEq, Prod.mk.injEq] at h
              exact Or.inl ⟨h.1.symm, h.2.1.symm, h.2.2.1.symm, h.2.2.2.symm⟩
            · split at h
              · simp only [Option.some.injEq, Prod.mk.injEq] at h
                exact Or.inl ⟨h.1.symm, h.2.1.symm, h.2.2.1.symm, h.2.2.2.symm⟩
              · split at h
                · simp only [Option.some.injEq, Prod.mk.injEq] at h
                  refine Or.inr ⟨h.1.symm, _, variable_opnd_or I,
                    Or.inr ⟨_, _, _, h.2.1.symm, h.2.2.1.symm, h.2.2.2.symm⟩⟩
                · simp only [Option.some.injEq, Prod.mk.injEq] at h
                  refine Or.inr ⟨h.1.symm, _, variable_opnd_or I,
                    Or.inl ⟨_, _, h.2.1.symm, h.2.2.1.symm, h.2.2.2.symm⟩⟩

theorem cancelLoop_inv {I : Inst} {c0 : Nat} (js : List Nat) :
    ∀ (B : List Inst) (tr : List Nat) (f : Nat) (B4 : List Inst)
      (tr4 : List Nat),
      scanInv B tr f → lookupId B I.id = some I →
      (∀ j ∈ js, ∀ J, lookupId B j = some J →
        usesV J (.inst I.id) = true) →
      cancelLoop I c0 js B tr = some (B4, tr4) →
      scanInv B4 tr4 f ∧ B4.map (·.id) = B.map (·.id) := by
  induction js with
  | nil =>
    intro B tr f B4 tr4 hinv _ _ hrun
    simp only [cancelLoop, Option.some.injEq, Prod.mk.injEq] at hrun
    obtain ⟨h1, h2⟩ := hrun
    subst h1
    subst h2
    exact ⟨hinv, rfl⟩
  | cons j js ih =>
    intro B tr f B4 tr4 hinv hIl husers hrun
    simp only [cancelLoop] at hrun
    split at hrun
    · exact absurd hrun (by simp)
    · rename_i J hJl
      split at hrun
      · exact ih B tr f B4 tr4 hinv hIl
          (fun j' hj' => husers j' (List.mem_cons_of_mem _ hj')) hrun
      · split at hrun
        · split at hrun
          · exact absurd hrun (by simp)
          · split at hrun
            · -- the cancellation fires on user J
              have hIB : I ∈ B := lookupId_mem hIl
              have hJB : J ∈ B := lookupId_mem hJl
              have huse : usesV J (.inst I.id) = true :=
                husers j (List.mem_cons_self _ _) J hJl
              have hvor : I.opnd (if isConstV I.op0 then 1 else 0) = I.op0 ∨
                  I.opnd (if isConstV I.op0 then 1 else 0) = I.op1 := by
                by_cases hco : isConstV I.op0 <;> simp [Inst.opnd, hco]
              obtain ⟨rank, hrank⟩ := hinv.1
              have hIJ : rank I.id < rank J.id := by
                have h := huse
                simp only [usesV, Bool.or_eq_true, decide_eq_true_eq] at h
                rcases h with h | h
                · exact rank_lt_of_uses0 (hrank J hJB) h
                · exact rank_lt_of_uses1 (hrank J hJB) h
              have hne : I.id ≠ J.id := by
                intro he
                rw [he] at hIJ
                exact lt_irrefl _ hIJ
              have hIno0 : I.op0 ≠ .inst J.id := by
                intro he
                have := rank_lt_of_uses0 (hrank I hIB) he
                omega
              have hIno1 : I.op1 ≠ .inst J.id := by
                intro he
                have := rank_lt_of_uses1 (hrank I hIB) he
                omega
              have hinv2 := scanInv_cancel_rauw hinv hIB hJB huse hvor
              have hIl2 : lookupId
                  (rauw B J.id (I.opnd (if isConstV I.op0 then 1 else 0)))
                  I.id = some I := by
                rw [lookupId_rauw, hIl]
                simp only [Option.map_some']
                rw [rauwInst_eq_self hIno0 hIno1]
              have husers2 : ∀ j' ∈ js, ∀ J',
                  lookupId (rauw B J.id
                    (I.opnd (if isConstV I.op0 then 1 else 0))) j' =
                    some J' →
                  usesV J' (.inst I.id) = true := by
                intro j' hj' J' hJ'
                rw [lookupId_rauw] at hJ'
                rcases hlk : lookupId B j' with _ | J0
                · rw [hlk] at hJ'
                  exact absurd hJ' (by simp)
                · rw [hlk] at hJ'
                  simp only [Option.map_some', Option.some.injEq] at hJ'
                  subst hJ'
                  have h0 := husers j' (List.mem_cons_of_mem _ hj') J0 hlk
                  simp only [usesV, Bool.or_eq_true, decide_eq_true_eq]
                    at h0 ⊢
                  have hiJ : (Value.inst I.id) ≠ Value.inst J.id := by
                    intro hx
                    exact hne (Value.inst.inj hx)
                  rcases h0 with h0 | h0
                  · left
                    show rauwV J.id (I.opnd (if isConstV I.op0 then 1 else 0))
                      J0.op0 = Value.inst I.id
                    unfold rauwV
                    rw [h0, if_neg hiJ]
                  · right
                    show rauwV J.id (I.opnd (if isConstV I.op0 then 1 else 0))
                      J0.op1 = Value.inst I.id
                    unfold rauwV
                    rw [h0, if_neg hiJ]
              obtain ⟨hfin, hids⟩ :=
                ih _ _ f B4 tr4 hinv2 hIl2 husers2 hrun
              rw [rauw_map_id] at hids
              exact ⟨hfin, hids⟩
            · exact ih B tr f B4 tr4 hinv hIl
                (fun j' hj' => husers j' (List.mem_cons_of_mem _ hj')) hrun
        · exact ih B tr f B4 tr4 hinv hIl
            (fun j' hj' => husers j' (List.mem_cons_of_mem _ hj')) hrun

theorem multiInstructionOptimization_inv {I : Inst} {B : List Inst}
    {tr : List Nat} {f : Nat} {B3 : List Inst} {tr3 : List Nat}
    (hinv : scanInv B tr f) (hIl : lookupId B I.id = some I)
    (h : multiInstructionOptimization I B tr = some (B3, tr3)) :
    scanInv B3 tr3 f ∧ B3.map (·.id) = B.map (·.id) := by
  unfold multiInstructionOptimization at h
  split at h
  · simp only [Option.some.injEq, Prod.mk.injEq] at h
    obtain ⟨h1, h2⟩ := h
    subst h1
    subst h2
    exact ⟨hinv, rfl⟩
  · split at h
    · exact absurd h (by simp)
    · refine cancelLoop_inv _ B tr f B3 tr3 hinv hIl ?_ h
      intro j hj J hJl
      rcases List.mem_map.1 hj with ⟨J0, hJ0, hJ0e⟩
      have hJ0B : J0 ∈ B := (List.mem_filter.1 hJ0).1
      have hJ0u : usesV J0 (.inst I.id) = true := (List.mem_filter.1 hJ0).2
      have hJB : J ∈ B := lookupId_mem hJl
      have hJe : J = J0 :=
        eq_of_mem_of_id_eq hinv.2.2.2.2 hJB hJ0B
          (by rw [lookupId_id hJl, ← hJ0e])
      rw [hJe]
      exact hJ0u

theorem scanStep_inv {B : List Inst} {i : Nat} {tr : List Nat} {f : Nat}
    {B1 : List Inst} {tr1 new : List Nat} {f1 : Nat}
    (hinv : scanInv B tr f)
    (h : scanStep B i tr f = some (B1, tr1, new, f1)) :
    scanInv B1 tr1 f1 ∧ List.Sublist (B.map (·.id)) (B1.map (·.id)) := by
  unfold scanStep at h
  split at h
  · exact absurd h (by simp)
  rename_i I hIl
  have hIB := lookupId_mem hIl
  have hIid := lookupId_id hIl
  subst hIid
  split at h
  · exact absurd h (by simp)
  rename_i m1 B1a halg
  split at h
  · exact absurd h (by simp)
  rename_i m2 B2 f2 newIds hstr
  split at h
  · exact absurd h (by simp)
  rename_i I2 hI2l
  split at h
  · exact absurd h (by simp)
  rename_i B3 tr3 hmio
  simp only [Option.some.injEq, Prod.mk.injEq] at h
  obtain ⟨hB1, htr1, hnew, hf1⟩ := h
  subst hB1
  subst htr1
  subst hnew
  subst hf1
  have hI2id := lookupId_id hI2l
  cases m1 with
  | true =>
    rcases algebraicIdentity_inversion halg with ⟨hf', _⟩ | ⟨_, v, hvor, hB1a⟩
    · exact absurd hf' (by simp)
    subst hB1a
    have hstr2 : (some (false, rauw B I.id v, f, ([] : List Nat)) :
        Option (Bool × List Inst × Nat × List Nat)) =
        some (m2, B2, f2, newIds) := hstr
    simp only [Option.some.injEq, Prod.mk.injEq] at hstr2
    obtain ⟨hm2, hB2, hf2, hnew2⟩ := hstr2
    subst hm2
    subst hB2
    subst hf2
    subst hnew2
    have hinvA : scanInv (rauw B I.id v) (tr ++ [I.id]) f :=
      scanInv_mark_rauw_operand hinv hIB hvor
    have hI2l2 : lookupId (rauw B I.id v) I2.id = some I2 := by
      rw [hI2id]
      exact hI2l
    have hmio2 : multiInstructionOptimization I2 (rauw B I.id v)
        (tr ++ [I.id]) = some (B3, tr3) := hmio
    obtain ⟨hfin, hids⟩ := multiInstructionOptimization_inv hinvA hI2l2 hmio2
    refine ⟨hfin, ?_⟩
    have he : B3.map (·.id) = B.map (·.id) := by rw [hids, rauw_map_id]
    rw [he]
  | false =>
    rcases algebraicIdentity_inversion halg with ⟨_, hB1a⟩ | ⟨ht, _⟩
    swap
    · exact absurd ht (by simp)
    rw [hB1a] at hstr
    have hstr2 : strengthReduction I B f = some (m2, B2, f2, newIds) := hstr
    rcases strengthReduction_inversion hstr2 with ⟨hm2, hB2, hf2, hnew2⟩ |
      ⟨hm2, v, hvor, hcase⟩
    · subst hm2
      subst hf2
      subst hnew2
      rw [hB2] at hI2l hmio
      have hI2l2 : lookupId B I2.id = some I2 := by
        rw [hI2id]
        exact hI2l
      have hmio2 : multiInstructionOptimization I2 B tr = some (B3, tr3) :=
        hmio
      obtain ⟨hfin, hids⟩ := multiInstructionOptimization_inv hinv hI2l2 hmio2
      refine ⟨hfin, ?_⟩
      rw [hids]
    · subst hm2
      rcases hcase with ⟨so, kc, hB2, hf2, hnew2⟩ |
        ⟨so, ro, kc, hB2, hf2, hnew2⟩
      · subst hB2
        subst hf2
        subst hnew2
        have hinvA : scanInv
            (rauw (insertAfterId B I.id [⟨f, so, v, Value.const kc⟩]) I.id
              (Value.inst f)) (tr ++ [I.id]) (f + 1) :=
          scanInv_strength1 hinv hIB hvor
        have hI2l2 : lookupId
            (rauw (insertAfterId B I.id [⟨f, so, v, Value.const kc⟩]) I.id
              (Value.inst f)) I2.id = some I2 := by
          rw [hI2id]
          exact hI2l
        have hmio2 : multiInstructionOptimization I2
            (rauw (insertAfterId B I.id [⟨f, so, v, Value.const kc⟩]) I.id
              (Value.inst f)) (tr ++ [I.id]) = some (B3, tr3) := hmio
        obtain ⟨hfin, hids⟩ :=
          multiInstructionOptimization_inv hinvA hI2l2 hmio2
        refine ⟨hfin, ?_⟩
        rw [hids, rauw_map_id]
        exact insertAfterId_map_id_sublist _ _ _
      · subst hB2
        subst hf2
        subst hnew2
        have hinvA : scanInv
            (rauw (insertAfterId B I.id
                [⟨f, so, v, Value.const kc⟩, ⟨f + 1, ro, Value.inst f, v⟩])
              I.id (Value.inst (f + 1))) (tr ++ [I.id]) (f + 2) :=
          scanInv_strength2 hinv hIB hvor
        have hI2l2 : lookupId
            (rauw (insertAfterId B I.id
                [⟨f, so, v, Value.const kc⟩, ⟨f + 1, ro, Value.inst f, v⟩])
              I.id (Value.inst (f + 1))) I2.id = some I2 := by
          rw [hI2id]
          exact hI2l
        have hmio2 : multiInstructionOptimization I2
            (rauw (insertAfterId B I.id
                [⟨f, so, v, Value.const kc⟩, ⟨f + 1, ro, Value.inst f, v⟩])
              I.id (Value.inst (f + 1))) (tr ++ [I.id]) = some (B3, tr3) :=
          hmio
        obtain ⟨hfin, hids⟩ :=
          multiInstructionOptimization_inv hinvA hI2l2 hmio2
        refine ⟨hfin, ?_⟩
        rw [hids, rauw_map_id]
        exact insertAfterId_map_id_sublist _ _ _

theorem scanGo_inv : ∀ (fuel : Nat) (B : List Inst) (q tr : List Nat)
    (f : Nat) {Bs : List Inst} {trs : List Nat} {fs : Nat},
    scanInv B tr f → scanGo fuel B q tr f = some (Bs, trs, fs) →
    scanInv Bs trs fs ∧ List.Sublist (B.map (·.id)) (Bs.map (·.id)) := by
  intro fuel
  induction fuel with
  | zero =>
    intro B q tr f Bs trs fs _ h
    exact absurd h (by simp [scanGo])
  | succ fl ih =>
    intro B q tr f Bs trs fs hinv h
    match q with
    | [] =>
      simp only [scanGo, Option.some.injEq, Prod.mk.injEq] at h
      obtain ⟨h1, h2, h3⟩ := h
      subst h1
      subst h2
      subst h3
      exact ⟨hinv, List.Sublist.refl _⟩
    | i :: q2 =>
      simp only [scanGo] at h
      split at h
      · exact absurd h (by simp)
      · rename_i B1 tr1 newIds f1 hstep
        obtain ⟨hinv1, hsub1⟩ := scanStep_inv hinv hstep
        obtain ⟨hinv2, hsub2⟩ := ih _ _ _ _ hinv1 h
        exact ⟨hinv2, hsub1.trans hsub2⟩

/-- C9: the Block Rewriter defers every erasure.  On an acyclic block (defs
before uses; a rank function decreases along use edges) whose instructions
have pairwise distinct identities, whenever `runOnBasicBlock` completes: the
scan phase keeps every original instruction in the block (rules only insert
and rewrite operands, never erase), the collected removal list is erased only
after the scan in a single pass, and — because every marked instruction had
all its uses redirected at marking time and never regains any — no surviving
instruction of the final block references an erased instruction. -/
theorem runOnBasicBlock_deferred_erase (B Bf : List Inst) (flag : Bool)
    (hacy : acyclic B) (hnd : (B.map (·.id)).Nodup)
    (hrun : runOnBasicBlock B = some (Bf, flag)) :
    ∃ Bs tr fs, scanBlock B = some (Bs, tr, fs) ∧
      List.Sublist (B.map (·.id)) (Bs.map (·.id)) ∧
      eraseAll Bs tr = some Bf ∧
      ∀ t ∈ tr, usesOf Bf t = [] := by
  unfold runOnBasicBlock at hrun
  split at hrun
  · exact absurd hrun (by simp)
  rename_i Bs tr fs hscan
  split at hrun
  · exact absurd hrun (by simp)
  rename_i Bf2 herase
  simp only [Option.some.injEq, Prod.mk.injEq] at hrun
  obtain ⟨h1, _⟩ := hrun
  subst h1
  have hinv0 : scanInv B [] (freshOf B) :=
    ⟨hacy, belowF_freshOf B, fun t ht => absurd ht (List.not_mem_nil t),
      fun t ht => absurd ht (List.not_mem_nil t), hnd⟩
  have hscan2 : scanGo (3 * B.length + 3) B (B.map (·.id)) [] (freshOf B) =
      some (Bs, tr, fs) := hscan
  obtain ⟨hinvS, hsub⟩ :=
    scanGo_inv (3 * B.length + 3) B (B.map (·.id)) [] (freshOf B) hinv0 hscan2
  refine ⟨Bs, tr, fs, hscan, hsub, herase, ?_⟩
  intro t ht
  exact usesOf_sublist_nil (eraseAll_sublist _ _ _ herase)
    (hinvS.2.2.1 t ht)

/-- Witness for C9 at the two-instruction cancellation block
`[%1 = add %v0, 5; %2 = sub %1, 5]`: the scan marks `%2` (redirecting its
uses to `%v0`), erasure happens after the scan, and the surviving block
`[%1]` references no erased instruction. -/
theorem runOnBasicBlock_deferred_erase_witness :
    acyclic [⟨1, .add, .var 0, .const 5⟩, ⟨2, .sub, .inst 1, .const 5⟩] ∧
      (∃ (Bs : List Inst) (tr : List Nat) (fs : Nat),
        scanBlock [⟨1, .add, .var 0, .const 5⟩, ⟨2, .sub, .inst 1, .const 5⟩] =
            some (Bs, tr, fs) ∧
          List.Sublist
            (([⟨1, .add, .var 0, .const 5⟩,
              ⟨2, .sub, .inst 1, .const 5⟩] : List Inst).map (·.id))
            (Bs.map (·.id)) ∧
          eraseAll Bs tr = some [⟨1, .add, .var 0, .const 5⟩] ∧
          ∀ t ∈ tr, usesOf [⟨1, .add, .var 0, .const 5⟩] t = []) := by
  have hacy : acyclic
      [⟨1, .add, .var 0, .const 5⟩, ⟨2, .sub, .inst 1, .const 5⟩] := by
    refine ⟨fun n => n, ?_⟩
    intro I hI
    rcases List.mem_cons.1 hI with rfl | hI
    · exact ⟨trivial, trivial⟩
    · rw [List.mem_singleton] at hI
      subst hI
      exact ⟨Nat.one_lt_two, trivial⟩
  exact ⟨hacy,
    runOnBasicBlock_deferred_erase
      [⟨1, .add, .var 0, .const 5⟩, ⟨2, .sub, .inst 1, .const 5⟩]
      [⟨1, .add, .var 0, .const 5⟩] true hacy (by decide) (by decide)⟩
